import Mathlib

/-
  Verification of the lssg static-site generator core.

  Shallow embedding of:
  - the buffered incremental reader `CharReader` from
    src/src/lmarkdown/char_reader.rs (bytes are modelled as `Nat`, the
    underlying `Read` source as the list of bytes it will yield in order,
    with slice semantics: a single `read` call returns as many of the
    requested bytes as are available);
  - the render orchestration of `Lssg::render` from src/src/lib.rs
    (error enumeration, the stack-based depth-first write walk and the
    per-node output actions);
  - the site tree path operations (`path`, `rel_path`), which live in the
    sitemap module that is not among the provided sources and are
    therefore modelled from the specification.
-/

/-! ## UTF-8 validation (Rust `String::from_utf8`) -/

/-- A UTF-8 continuation byte: `0x80 ..= 0xBF`. -/
def isUtf8Cont (b : Nat) : Bool := 0x80 ≤ b && b ≤ 0xBF

/-- Standard UTF-8 well-formedness of a byte sequence, following the table
used by Rust's `core::str` validation (which `String::from_utf8` applies). -/
def validUtf8 : List Nat → Bool
  | [] => true
  | b :: rest =>
    if b ≤ 0x7F then validUtf8 rest
    else if 0xC2 ≤ b && b ≤ 0xDF then
      match rest with
      | c1 :: r => isUtf8Cont c1 && validUtf8 r
      | [] => false
    else if 0xE0 ≤ b && b ≤ 0xEF then
      match rest with
      | c1 :: c2 :: r =>
        (if b = 0xE0 then 0xA0 ≤ c1 && c1 ≤ 0xBF
         else if b = 0xED then 0x80 ≤ c1 && c1 ≤ 0x9F
         else isUtf8Cont c1) && isUtf8Cont c2 && validUtf8 r
      | _ => false
    else if 0xF0 ≤ b && b ≤ 0xF4 then
      match rest with
      | c1 :: c2 :: c3 :: r =>
        (if b = 0xF0 then 0x90 ≤ c1 && c1 ≤ 0xBF
         else if b = 0xF4 then 0x80 ≤ c1 && c1 ≤ 0x8F
         else isUtf8Cont c1) && isUtf8Cont c2 && isUtf8Cont c3 && validUtf8 r
      | _ => false
    else false

/-! ## CharReader (src/src/lmarkdown/char_reader.rs) -/

/-- Error type standing for `ParseError`: the reader produces either an
`io::ErrorKind::UnexpectedEof` wrapped into a `ParseError` or the
`ParseError::invalid("String contains invalid utf-8")` value. -/
inductive PError where
  | eof
  | invalidUtf8
deriving DecidableEq, Repr

/-- State of `CharReader<R>`: the look-ahead buffer `peek_buffer` and the
bytes the inner `Read` source will still yield, in order. -/
structure CharReader where
  peekBuffer : List Nat
  inner : List Nat
deriving DecidableEq, Repr

/-- All bytes still deliverable to the caller: look-ahead buffer first,
then the unread part of the source. -/
def combined (r : CharReader) : List Nat := r.peekBuffer ++ r.inner

/-- Zero padding: callers of `peek` pass a zero-initialised `buf`, and the
cursor reads only overwrite its first `min` bytes. -/
def padZero (n : Nat) (l : List Nat) : List Nat :=
  l ++ List.replicate (n - l.length) 0

/-- `CharReader::peek` (char_reader.rs lines 18-37) with a zero-initialised
`buf` of length `n`.  The code first copies from `peek_buffer` into `buf`
when the buffer already holds `n` bytes, then UNCONDITIONALLY pulls up to
`n` further bytes from the inner source (`take(n).read_to_end`), errors iff
that pull returned zero bytes, and finally re-fills `buf` from the front of
the grown `peek_buffer` (overwriting whatever the first copy wrote).  The
returned list is the final contents of `buf`. -/
def CharReader.peek (r : CharReader) (n : Nat) :
    Except PError (List Nat × CharReader) :=
  let pulled := r.inner.take n
  let newBuffer := r.peekBuffer ++ pulled
  if pulled.length = 0 then
    .error .eof
  else
    .ok (padZero n (newBuffer.take n), ⟨newBuffer, r.inner.drop n⟩)

/-- `CharReader::peek_string` (lines 39-44): `peek` into a zeroed vector of
the requested length, then `String::from_utf8`. -/
def CharReader.peek_string (r : CharReader) (length : Nat) :
    Except PError (List Nat × CharReader) :=
  match r.peek length with
  | .error e => .error e
  | .ok (buffer, r') =>
    if validUtf8 buffer then .ok (buffer, r') else .error .invalidUtf8

/-- `CharReader::peek_char` (lines 46-50): `peek` one byte and return
`buffer[0] as char`; a byte `b` cast to `char` is the scalar value `b`. -/
def CharReader.peek_char (r : CharReader) :
    Except PError (Nat × CharReader) :=
  match r.peek 1 with
  | .error e => .error e
  | .ok (buffer, r') => .ok (buffer.headD 0, r')

/-- A single call of `<CharReader as Read>::read` (lines 76-98) on a buffer
of length `n`: drain up to `n` bytes from `peek_buffer`; if the request is
not yet filled, read the remainder directly from the inner source.  Returns
the bytes actually delivered (the reported read count is their length). -/
def CharReader.readOnce (r : CharReader) (n : Nat) : List Nat × CharReader :=
  if r.peekBuffer = [] then
    (r.inner.take n, ⟨[], r.inner.drop n⟩)
  else
    let amountFromPeek := min r.peekBuffer.length n
    (r.peekBuffer.take amountFromPeek ++ r.inner.take (n - amountFromPeek),
     ⟨r.peekBuffer.drop amountFromPeek, r.inner.drop (n - amountFromPeek)⟩)

/-- `Read::read_exact` default implementation as used by `read_string` and
`read_char`: call `read` until the request is filled; a call delivering
zero bytes before that aborts with `UnexpectedEof`. -/
def CharReader.read_exact (r : CharReader) (n : Nat) :
    Except PError (List Nat × CharReader) :=
  if _h0 : n = 0 then .ok ([], r)
  else
    match r.readOnce n with
    | (bytes, r') =>
      if h : bytes.length = 0 then .error .eof
      else
        match r'.read_exact (n - bytes.length) with
        | .error e => .error e
        | .ok (more, r'') => .ok (bytes ++ more, r'')
termination_by n
decreasing_by
  have h1 : 1 ≤ bytes.length := Nat.one_le_iff_ne_zero.mpr h
  omega

/-- `CharReader::read_string` (lines 52-57): `read_exact` into a zeroed
vector, then `String::from_utf8`. -/
def CharReader.read_string (r : CharReader) (length : Nat) :
    Except PError (List Nat × CharReader) :=
  match r.read_exact length with
  | .error e => .error e
  | .ok (buffer, r') =>
    if validUtf8 buffer then .ok (buffer, r') else .error .invalidUtf8

/-- `CharReader::read_char` (lines 59-63): `read_exact` one byte, return
`buffer[0] as char`. -/
def CharReader.read_char (r : CharReader) :
    Except PError (Nat × CharReader) :=
  match r.read_exact 1 with
  | .error e => .error e
  | .ok (buffer, r') => .ok (buffer.headD 0, r')

/-- Fuel-indexed unfolding of the `read_until` loop (lines 65-73):
`read_char`; while `op` holds on the character, push it and read again;
the first character failing `op` ends the loop and is dropped.  Each
successful `read_char` consumes one byte of the combined stream, so fuel
exceeding the stream length never runs out before the loop ends by itself
(see the wrapper below). -/
def readUntilFuel (op : Nat → Bool) : Nat → CharReader →
    Except PError (List Nat × CharReader)
  | 0, _ => .error .eof
  | fuel+1, r =>
    match r.read_char with
    | .error e => .error e
    | .ok (c, r') =>
      if op c then
        match readUntilFuel op fuel r' with
        | .error e => .error e
        | .ok (s, r'') => .ok (c :: s, r'')
      else .ok ([], r')

/-- `CharReader::read_until` (lines 65-73), run with fuel larger than the
number of available bytes, which the loop can never exceed. -/
def CharReader.read_until (r : CharReader) (op : Nat → Bool) :
    Except PError (List Nat × CharReader) :=
  readUntilFuel op (r.peekBuffer.length + r.inner.length + 1) r

/-- Applying a sequence of `peek` calls in order; a failing `peek` pulls
nothing and leaves the reader unchanged, exactly as in the source. -/
def applyPeeks (ns : List Nat) (r : CharReader) : CharReader :=
  match ns with
  | [] => r
  | n :: rest =>
    match r.peek n with
    | .error _ => applyPeeks rest r
    | .ok (_, r') => applyPeeks rest r'

/-! ## Site tree (spec-modelled: the sitemap module is not under src/) -/

/-- Modelled from the spec: a site tree node has a display name and an
optional parent id (`None` only for the root); the `SiteMap` arena holding
the nodes is not part of the provided sources (src/ contains only its
callers in lib.rs), so the structure follows §3 of the spec. -/
structure SNode where
  name : String
  parent : Option Nat
deriving DecidableEq, Repr

/-- Modelled from the spec: the arena of nodes indexed by stable integer
id (append-only, so a node's parent id is smaller than its own id). -/
abbrev SiteTreeM := List SNode

def parentOf (t : SiteTreeM) (id : Nat) : Option Nat :=
  (t.get? id).bind SNode.parent

def nameOf (t : SiteTreeM) (id : Nat) : String :=
  ((t.get? id).map SNode.name).getD ""

/-- Walk the parent chain upward with explicit fuel. -/
def chainAux (t : SiteTreeM) : Nat → Nat → List Nat
  | 0, id => [id]
  | fuel+1, id =>
    match parentOf t id with
    | some p => id :: chainAux t fuel p
    | none => [id]

/-- Modelled from the spec: the parent chain of `id`, starting at `id` and
ending at the root.  In an append-only arena every parent id is smaller
than its child's id, so fuel `id` always suffices. -/
def chain (t : SiteTreeM) (id : Nat) : List Nat := chainAux t id id

/-- Well-formedness of the arena: every parent id is strictly smaller than
its child's id (ids are assigned in insertion order and a node is always
attached to an existing parent). -/
def wfParents (t : SiteTreeM) : Bool :=
  (List.range t.length).all fun i =>
    match parentOf t i with
    | some p => decide (p < i)
    | none => true

/-- Depth of a node: number of steps from the node up to the root. -/
def depthOf (t : SiteTreeM) (id : Nat) : Nat := (chain t id).length - 1

/-- Modelled from the spec: the lowest common ancestor, found by walking
`a`'s parent chain and returning its first entry that also occurs in `b`'s
parent chain. -/
def lcaOf (t : SiteTreeM) (a b : Nat) : Option Nat :=
  (chain t a).find? fun x => (chain t b).contains x

/-- Modelled from the spec: the segments of `rel_path(a, b)` — one `..`
per step from `a` up to the lowest common ancestor, then the names from
the ancestor down to `b`. -/
def relSegments (t : SiteTreeM) (a b : Nat) : Option (List String) :=
  match lcaOf t a b with
  | none => none
  | some l =>
    some (List.replicate ((chain t a).indexOf l) ".." ++
      ((chain t b).takeWhile (fun x => !(x == l))).reverse.map (nameOf t))

/-- Modelled from the spec: `rel_path` as a slash-joined string. -/
def rel_path (t : SiteTreeM) (a b : Nat) : Option String :=
  (relSegments t a b).map fun segs => String.intercalate "/" segs

/-- Modelled from the spec: `path(id)` joins the node names from the root
down to `id`; the root contributes no segment. -/
def pathSegs (t : SiteTreeM) (id : Nat) : List String :=
  ((chain t id).reverse.map (nameOf t)).tail

/-! ## The render walk (src/src/lib.rs lines 169-203) -/

/-- The children arena: for each node id, the ordered list of child ids
(`node.children` in the source). -/
abbrev ChildArena := List (List Nat)

def childrenOf (t : ChildArena) (id : Nat) : List Nat := (t.get? id).getD []

/-- Well-formedness: every child id is strictly greater than its parent's
id and inside the arena (ids are assigned in insertion order by
`SiteMap::add`). -/
def wfChildren (t : ChildArena) : Bool :=
  (List.range t.length).all fun i =>
    (childrenOf t i).all fun c => decide (i < c) && decide (c < t.length)

mutual
/-- All node ids of the subtree rooted at `id`, in first-child-first
preorder.  The guard mirrors the well-formedness bound and only serves
termination; on a well-formed arena it is always true. -/
def subtree (t : ChildArena) (id : Nat) : List Nat :=
  id :: subtreeAll t id (childrenOf t id)
termination_by ((t.length - id, (childrenOf t id).length + 1) : Nat × Nat)

/-- Concatenated subtrees of a list of children of `id`. -/
def subtreeAll (t : ChildArena) (id : Nat) : List Nat → List Nat
  | [] => []
  | c :: cs =>
    (if h : id < c ∧ c < t.length then subtree t c else []) ++
      subtreeAll t id cs
termination_by cs => ((t.length - id, cs.length) : Nat × Nat)
end

/-- The render walk of `Lssg::render`: a `Vec<usize>` queue seeded with
the root; pop from the END of the queue, visit the node, append its
children (`queue.append(&mut node.children.clone())`), repeat.  The
visitation order of siblings is determined by `ord`; the source uses
`ord = childrenOf t`, which makes the stack visit the LAST child first.
Fuel bounds the loop for totality; fuel at least the total subtree size
never runs out. -/
def walkVec (ord : Nat → List Nat) : Nat → List Nat → List Nat
  | 0, _ => []
  | fuel+1, queue =>
    match queue.getLast? with
    | none => []
    | some id => id :: walkVec ord fuel (queue.dropLast ++ ord id)

/-! ## Render actions and errors (src/src/lib.rs) -/

/-- The content variant of a node (`sitemap::NodeType`), carrying only
what the write walk consumes. -/
inductive NodeTypeM where
  | stylesheet (content : String)
  | resource (input : String)
  | folder
  | page (keepName : Bool) (html : String)
deriving DecidableEq, Repr

/-- A filesystem effect performed by the walk; paths are segment lists. -/
inductive FsAction where
  | writeFile (path : List String) (content : String)
  | copyFile (src : String) (dst : List String)
  | makeDir (path : List String)
deriving DecidableEq, Repr

/-- The body of the per-node `match` in `Lssg::render` (lib.rs lines
175-201): stylesheet nodes are written at their tree path, resources are
copied there, folders become directories, and pages are written either to
`path.join("../<name>.html")` (keep-name set — note the literal `..`
segment produced by `PathBuf::join`) or to `path/index.html` after
creating `path`. -/
def nodeActions (outDir : List String) (t : SiteTreeM) (nt : Nat → NodeTypeM)
    (id : Nat) : List FsAction :=
  let path := outDir ++ pathSegs t id
  match nt id with
  | .stylesheet s => [.writeFile path s]
  | .resource input => [.copyFile input path]
  | .folder => [.makeDir path]
  | .page keepName html =>
    if keepName then
      [.writeFile (path ++ ["..", nameOf t id ++ ".html"]) html]
    else
      [.makeDir path, .writeFile (path ++ ["index.html"]) html]

/-- Lexical normalisation of a segment path: a `..` segment removes the
segment before it (this is how the operating system resolves the
`name/../name.html` target produced by the keep-name branch). -/
def normSegs (segs : List String) : List String :=
  segs.foldl (fun acc s => if s = ".." then acc.dropLast else acc ++ [s]) []

/-- Mirror of the `LssgError` enumeration (lib.rs lines 21-47): the closed
set of error kinds a render can surface. -/
inductive LssgErrorM where
  | parseError (e : Nat)
  | regexError (e : Nat)
  | renderError (msg : String)
  | ioError (e : Nat)
deriving DecidableEq, Repr

/-- Sequencing of fallible steps exactly as the `?` operator chains them in
`Lssg::render`: each step performs its filesystem actions and either
succeeds or stops the whole run with its error.  Actions performed before
the failure are kept (nothing is rolled back). -/
def runSeq : List (List FsAction × Option LssgErrorM) →
    List FsAction × Option LssgErrorM
  | [] => ([], none)
  | (acts, some e) :: _ => (acts, some e)
  | (acts, none) :: rest =>
    match runSeq rest with
    | (more, res) => (acts ++ more, res)

/-- `Lssg::render` as a sequence of steps: the pre-walk steps (stylesheet
merging, sitemap construction, favicon and not-found insertion, output
directory recreation) followed by one step per node in walk order. -/
def renderModel (pre : List (List FsAction × Option LssgErrorM))
    (step : Nat → List FsAction × Option LssgErrorM)
    (walkOrder : List Nat) : List FsAction × Option LssgErrorM :=
  runSeq (pre ++ walkOrder.map step)

/-! ## Concrete inputs used by witnesses -/

/-- The bytes of `"This is a piece of text"`, the input of the `test_peek`
scenario (char_reader.rs lines 100-119). -/
def demoBytes : List Nat :=
  [84, 104, 105, 115, 32, 105, 115, 32, 97, 32, 112, 105, 101, 99, 101,
   32, 111, 102, 32, 116, 101, 120, 116]

/-- A five-node site tree: root with child `a`, grandchild `b`, and two
siblings `x`, `y` under `b` (the `/a/b/x`, `/a/b/y` example of §8). -/
def exTree : SiteTreeM :=
  [⟨"root", none⟩, ⟨"a", some 0⟩, ⟨"b", some 1⟩, ⟨"x", some 2⟩,
   ⟨"y", some 2⟩]

/-- A three-node children arena: the root has children 1 and 2. -/
def exArena : ChildArena := [[1, 2], [], []]

/-! ## Reader lemmas -/

/-- A zero-length exact read succeeds without touching the reader. -/
theorem read_exact_zero (r : CharReader) :
    r.read_exact 0 = .ok ([], r) := by
  rw [CharReader.read_exact.eq_def]
  simp

/-- `read_exact` on a fully drained reader: succeeds only for a zero-length
request. -/
theorem read_exact_empty (m : Nat) :
    CharReader.read_exact ⟨[], []⟩ m =
      if m = 0 then .ok ([], (⟨[], []⟩ : CharReader)) else .error PError.eof := by
  rw [CharReader.read_exact.eq_def]
  by_cases h : m = 0
  · simp [h]
  · simp [h, CharReader.readOnce]

theorem readOnce_nil (i : List Nat) (n : Nat) :
    CharReader.readOnce ⟨[], i⟩ n = (i.take n, ⟨[], i.drop n⟩) := by
  simp [CharReader.readOnce]

/-- `readOnce` with a non-empty look-ahead buffer: drain `min` bytes from
the buffer, then the remainder of the request from the source. -/
theorem readOnce_ne (b i : List Nat) (n : Nat) (hb : b ≠ []) :
    CharReader.readOnce ⟨b, i⟩ n =
      (b.take (min b.length n) ++ i.take (n - min b.length n),
       ⟨b.drop (min b.length n), i.drop (n - min b.length n)⟩) := by
  simp [CharReader.readOnce, hb]

/-- Characterisation of `read_exact`: it succeeds iff at least `n` bytes
remain between the look-ahead buffer and the source, returns exactly the
next `n` bytes of the combined stream, and consumes them from the buffer
first, then the source. -/
theorem read_exact_eq (b i : List Nat) (n : Nat) :
    CharReader.read_exact ⟨b, i⟩ n =
      if n ≤ b.length + i.length then
        .ok ((b ++ i).take n, ⟨b.drop n, i.drop (n - b.length)⟩)
      else .error PError.eof := by
  by_cases hn : n = 0
  · subst hn
    rw [read_exact_zero]
    simp
  rw [CharReader.read_exact.eq_def]
  simp only [dif_neg hn]
  rcases eq_or_ne b [] with hb | hb
  · subst hb
    rw [readOnce_nil]
    dsimp only
    rcases le_or_lt n i.length with hni | hni
    · have hlen : (i.take n).length = n := by
        simp [Nat.min_eq_left hni]
      rw [dif_neg (by omega : ¬ ((i.take n).length = 0))]
      rw [hlen, Nat.sub_self, read_exact_zero]
      dsimp only
      rw [if_pos (by simpa using hni)]
      simp
    · have hlen : (i.take n).length = i.length := by
        simp [Nat.min_eq_right (Nat.le_of_lt hni)]
      by_cases hi0 : i.length = 0
      · have hie : i = [] := List.length_eq_zero.mp hi0
        subst hie
        rw [dif_pos (by simp)]
        rw [if_neg (by simpa using hn)]
      · have hdrop : i.drop n = [] := List.drop_eq_nil_of_le (Nat.le_of_lt hni)
        rw [dif_neg (by omega : ¬ ((i.take n).length = 0))]
        rw [hlen, hdrop, read_exact_empty]
        rw [if_neg (by omega : ¬ (n - i.length = 0))]
        dsimp only
        rw [if_neg (by simpa using Nat.not_le.mpr hni)]
  · rw [readOnce_ne b i n hb]
    dsimp only
    have hbl : 0 < b.length := List.length_pos.mpr hb
    rcases le_or_lt n b.length with hnb | hnb
    · -- request filled from the look-ahead buffer alone
      rw [Nat.min_eq_right hnb]
      simp only [Nat.sub_self, List.take_zero, List.drop_zero,
        List.append_nil]
      have hlen : (b.take n).length = n := by
        simp [Nat.min_eq_left hnb]
      rw [dif_neg (by omega : ¬ ((b.take n).length = 0))]
      rw [hlen, Nat.sub_self, read_exact_zero]
      dsimp only
      rw [if_pos (by omega : n ≤ b.length + i.length)]
      rw [List.take_append_of_le_length hnb, Nat.sub_eq_zero_of_le hnb]
      simp
    · -- buffer drained entirely, remainder from the source
      rw [Nat.min_eq_left (Nat.le_of_lt hnb)]
      rw [List.take_length, List.drop_length]
      have hlen1 : (b ++ i.take (n - b.length)).length =
          b.length + min (n - b.length) i.length := by
        simp [List.length_append, List.length_take]
      rw [dif_neg (by omega : ¬ ((b ++ i.take (n - b.length)).length = 0))]
      rcases le_or_lt (n - b.length) i.length with hi2 | hi2
      · -- the source has enough bytes
        have hlen2 : (b ++ i.take (n - b.length)).length = n := by
          rw [hlen1, Nat.min_eq_left hi2]
          omega
        rw [hlen2, Nat.sub_self, read_exact_zero]
        dsimp only
        rw [if_pos (by omega : n ≤ b.length + i.length)]
        rw [List.take_append_eq_append_take,
          List.take_of_length_le (Nat.le_of_lt hnb),
          List.drop_eq_nil_of_le (Nat.le_of_lt hnb)]
        simp
      · -- the source too is exhausted before the request is filled
        have hlen2 : (b ++ i.take (n - b.length)).length =
            b.length + i.length := by
          rw [hlen1, Nat.min_eq_right (Nat.le_of_lt hi2)]
        have hdone : i.drop (n - b.length) = [] :=
          List.drop_eq_nil_of_le (Nat.le_of_lt hi2)
        rw [hlen2, hdone, read_exact_empty]
        rw [if_neg (by omega : ¬ (n - (b.length + i.length) = 0))]
        dsimp only
        rw [if_neg (by omega : ¬ (n ≤ b.length + i.length))]

/-- `read_char` on an exhausted reader fails with end of input. -/
theorem read_char_nil (r : CharReader) (h : combined r = []) :
    r.read_char = .error PError.eof := by
  have h1 : r.peekBuffer.length + r.inner.length = 0 := by
    have := congrArg List.length h
    simpa [combined] using this
  unfold CharReader.read_char
  rw [read_exact_eq, if_neg (by omega)]

/-- `read_char` on a non-exhausted reader returns the head of the combined
stream and consumes exactly it. -/
theorem read_char_cons (r : CharReader) (c : Nat) (cs : List Nat)
    (h : combined r = c :: cs) :
    r.read_char =
      .ok (c, ⟨r.peekBuffer.drop 1, r.inner.drop (1 - r.peekBuffer.length)⟩) ∧
    combined (⟨r.peekBuffer.drop 1,
               r.inner.drop (1 - r.peekBuffer.length)⟩ : CharReader) = cs := by
  have h1 : 1 ≤ r.peekBuffer.length + r.inner.length := by
    have := congrArg List.length h
    simp [combined] at this
    omega
  have htake : (r.peekBuffer ++ r.inner).take 1 = [c] := by
    rw [show r.peekBuffer ++ r.inner = combined r from rfl, h]
    rfl
  have hdrop : (r.peekBuffer ++ r.inner).drop 1 = cs := by
    rw [show r.peekBuffer ++ r.inner = combined r from rfl, h]
    rfl
  constructor
  · unfold CharReader.read_char
    rw [read_exact_eq, if_pos h1, htake]
    rfl
  · show r.peekBuffer.drop 1 ++ r.inner.drop (1 - r.peekBuffer.length) = cs
    rw [← List.drop_append_eq_append_drop, hdrop]

/-- `readUntilFuel` with sufficient fuel implements the read/check loop:
with stream `pre ++ t :: rest`, all of `pre` accepted by `op` and `t`
rejected, it returns `pre` and the reader continues at `rest`. -/
theorem readUntilFuel_spec (op : Nat → Bool) (pre : List Nat) :
    ∀ (fuel : Nat) (r : CharReader) (t : Nat) (rest : List Nat),
      combined r = pre ++ t :: rest →
      pre.length < fuel →
      (∀ c ∈ pre, op c = true) → op t = false →
      ∃ r', readUntilFuel op fuel r = .ok (pre, r') ∧ combined r' = rest := by
  induction pre with
  | nil =>
    intro fuel r t rest hc hf hall ht
    cases fuel with
    | zero => omega
    | succ f =>
      obtain ⟨hrc, hcomb⟩ := read_char_cons r t rest (by simpa using hc)
      refine ⟨⟨r.peekBuffer.drop 1, r.inner.drop (1 - r.peekBuffer.length)⟩,
        ?_, hcomb⟩
      simp only [readUntilFuel]
      rw [hrc]
      dsimp only
      rw [if_neg (by simp [ht])]
  | cons c cs ih =>
    intro fuel r t rest hc hf hall ht
    cases fuel with
    | zero => simp at hf
    | succ f =>
      obtain ⟨hrc, hcomb⟩ :=
        read_char_cons r c (cs ++ t :: rest) (by simpa using hc)
      obtain ⟨r', hru, hcomb'⟩ :=
        ih f ⟨r.peekBuffer.drop 1, r.inner.drop (1 - r.peekBuffer.length)⟩
          t rest hcomb (by simpa using hf)
          (fun d hd => hall d (List.mem_cons_of_mem c hd)) ht
      refine ⟨r', ?_, hcomb'⟩
      simp only [readUntilFuel]
      rw [hrc]
      dsimp only
      rw [if_pos (hall c (List.mem_cons_self c cs)), hru]

/-- Specification of `read_until` (claim C4): with stream
`pre ++ t :: rest` where every byte of `pre` satisfies `op` and `t` does
not, it returns exactly `pre`, and the terminating byte `t` is consumed
and discarded: the reader continues at `rest`. -/
theorem read_until_spec (op : Nat → Bool) (pre : List Nat) (r : CharReader)
    (t : Nat) (rest : List Nat)
    (hc : combined r = pre ++ t :: rest)
    (hall : ∀ c ∈ pre, op c = true) (ht : op t = false) :
    ∃ r', r.read_until op = .ok (pre, r') ∧ combined r' = rest := by
  have hlen : (combined r).length = pre.length + 1 + rest.length := by
    rw [hc]
    simp
    omega
  have hlen2 : (combined r).length = r.peekBuffer.length + r.inner.length := by
    simp [combined]
  unfold CharReader.read_until
  exact readUntilFuel_spec op pre (r.peekBuffer.length + r.inner.length + 1)
    r t rest hc (by omega) hall ht

/-- A successful `peek` appends the pulled bytes to the look-ahead buffer
and removes them from the source: the combined stream is unchanged. -/
theorem peek_preserves (r : CharReader) (n : Nat) (bs : List Nat)
    (r' : CharReader) (h : r.peek n = .ok (bs, r')) :
    combined r' = combined r := by
  unfold CharReader.peek at h
  by_cases hp : (r.inner.take n).length = 0
  · rw [if_pos hp] at h
    cases h
  · rw [if_neg hp] at h
    injection h with h2
    injection h2 with hb hr
    subst hr
    show (r.peekBuffer ++ r.inner.take n) ++ r.inner.drop n = combined r
    rw [List.append_assoc, List.take_append_drop]
    rfl

/-- A failed `peek` only ever reports end of input. -/
theorem peek_error_state (r : CharReader) (n : Nat) (e : PError)
    (h : r.peek n = .error e) : e = PError.eof := by
  unfold CharReader.peek at h
  by_cases hp : (r.inner.take n).length = 0
  · rw [if_pos hp] at h
    injection h with h2
    exact h2.symm
  · rw [if_neg hp] at h
    cases h

/-- Taking `n` from the buffer extended by an `n`-byte pull equals taking
`n` from the whole combined stream. -/
theorem take_pull_eq (b i : List Nat) (n : Nat) :
    (b ++ i.take n).take n = (b ++ i).take n := by
  rw [List.take_append_eq_append_take, List.take_append_eq_append_take,
    List.take_take, Nat.min_eq_left (Nat.sub_le n b.length)]

/-- What a successful `peek` returns: the first `n` bytes of the grown
look-ahead buffer, zero-padded, and the grown buffer as the new state. -/
theorem peek_ok (r : CharReader) (n : Nat) (bs : List Nat) (r' : CharReader)
    (h : r.peek n = .ok (bs, r')) :
    bs = padZero n ((r.peekBuffer ++ r.inner.take n).take n) ∧
    r' = ⟨r.peekBuffer ++ r.inner.take n, r.inner.drop n⟩ := by
  unfold CharReader.peek at h
  by_cases hp : (r.inner.take n).length = 0
  · rw [if_pos hp] at h
    cases h
  · rw [if_neg hp] at h
    injection h with h2
    injection h2 with h3 h4
    exact ⟨h3.symm, h4.symm⟩

/-- A successful `peek_string` is a successful `peek` whose bytes passed
UTF-8 validation. -/
theorem peek_string_ok (r : CharReader) (n : Nat) (bs : List Nat)
    (r' : CharReader) (h : r.peek_string n = .ok (bs, r')) :
    r.peek n = .ok (bs, r') := by
  unfold CharReader.peek_string at h
  cases hpk : r.peek n with
  | error e =>
    rw [hpk] at h
    cases h
  | ok val =>
    obtain ⟨buffer, rr⟩ := val
    rw [hpk] at h
    dsimp only at h
    by_cases hv : validUtf8 buffer
    · rw [if_pos hv] at h
      exact h
    · rw [if_neg hv] at h
      cases h

/-- What a successful `read_string` returns: the next `n` bytes of the
combined stream (which must hold at least `n`). -/
theorem read_string_ok (r : CharReader) (n : Nat) (q : List Nat)
    (r₂ : CharReader) (h : r.read_string n = .ok (q, r₂)) :
    n ≤ (combined r).length ∧ q = (combined r).take n := by
  unfold CharReader.read_string at h
  rw [read_exact_eq] at h
  by_cases hle : n ≤ r.peekBuffer.length + r.inner.length
  · rw [if_pos hle] at h
    dsimp only at h
    by_cases hv : validUtf8 ((r.peekBuffer ++ r.inner).take n)
    · rw [if_pos hv] at h
      injection h with h2
      injection h2 with h3 _
      refine ⟨?_, h3.symm⟩
      simp only [combined, List.length_append]
      omega
    · rw [if_neg hv] at h
      cases h
  · rw [if_neg hle] at h
    cases h

/-- `applyPeeks` never changes the combined stream of deliverable bytes. -/
theorem applyPeeks_preserves (ns : List Nat) :
    ∀ r : CharReader, combined (applyPeeks ns r) = combined r := by
  induction ns with
  | nil => intro r; rfl
  | cons n rest ih =>
    intro r
    unfold applyPeeks
    cases hpk : r.peek n with
    | error e => exact ih r
    | ok val =>
      obtain ⟨bs, r'⟩ := val
      rw [ih r']
      exact peek_preserves r n bs r' hpk

/-- The bytes delivered by `read_string` depend only on the combined
stream, not on how it is split between buffer and source. -/
theorem read_string_bytes_combined (r s : CharReader) (n : Nat)
    (h : combined r = combined s) :
    Except.map Prod.fst (r.read_string n) =
      Except.map Prod.fst (s.read_string n) := by
  have hl : r.peekBuffer.length + r.inner.length =
      s.peekBuffer.length + s.inner.length := by
    have := congrArg List.length h
    simpa [combined] using this
  have hc : r.peekBuffer ++ r.inner = s.peekBuffer ++ s.inner := h
  unfold CharReader.read_string
  rw [read_exact_eq, read_exact_eq]
  by_cases hle : n ≤ r.peekBuffer.length + r.inner.length
  · rw [if_pos hle, if_pos (by omega)]
    dsimp only
    rw [hc]
    by_cases hv : validUtf8 ((s.peekBuffer ++ s.inner).take n)
    · rw [if_pos hv, if_pos hv]
      rfl
    · rw [if_neg hv, if_neg hv]
  · rw [if_neg hle, if_neg (by omega)]

/-! ## Claims about the reader -/

/-- C1 counterexample: the claim says `peek(n)` fails with an end-of-input
error whenever fewer than `n` bytes remain in total.  On a fresh reader
over the two bytes `"ab"`, `peek_string 5` SUCCEEDS, returning the two
available bytes zero-padded to the requested length. -/
theorem C1_counterexample :
    (combined ⟨[], [97, 98]⟩).length < 5 ∧
    CharReader.peek_string ⟨[], [97, 98]⟩ 5 =
      .ok ([97, 98, 0, 0, 0], ⟨[97, 98], []⟩) := by
  constructor
  · decide
  · rfl

/-- C1 (amended): `read_string n` fails with end-of-input exactly when
fewer than `n` bytes remain, and returns the next `n` bytes when enough
remain and they are valid UTF-8.  `peek n`, however, fails iff its
unconditional pull from the source returns zero bytes — that is, iff the
source is exhausted or `n = 0` — regardless of the buffer contents; when
the pull succeeds and at least `n` bytes remain in total, it returns
exactly the next `n` bytes and leaves the look-ahead buffer holding at
least `n` bytes; when fewer than `n` remain it still succeeds, returning
the remaining bytes zero-padded to length `n`. -/
theorem C1_amended (r : CharReader) (n : Nat) :
    ((combined r).length < n → r.read_string n = .error PError.eof)
    ∧ (n ≤ (combined r).length → validUtf8 ((combined r).take n) = true →
        r.read_string n =
          .ok ((combined r).take n,
            ⟨r.peekBuffer.drop n, r.inner.drop (n - r.peekBuffer.length)⟩))
    ∧ (r.peek n = .error PError.eof ↔ (r.inner = [] ∨ n = 0))
    ∧ (r.inner ≠ [] → n ≠ 0 → n ≤ (combined r).length →
        r.peek n =
          .ok ((combined r).take n,
               ⟨r.peekBuffer ++ r.inner.take n, r.inner.drop n⟩) ∧
        n ≤ (r.peekBuffer ++ r.inner.take n).length)
    ∧ (r.inner ≠ [] → n ≠ 0 → (combined r).length < n →
        r.peek n =
          .ok (combined r ++ List.replicate (n - (combined r).length) 0,
               ⟨combined r, []⟩)) := by
  have hcount : (combined r).length = r.peekBuffer.length + r.inner.length := by
    simp [combined]
  refine ⟨?_, ?_, ?_, ?_, ?_⟩
  · intro hlt
    unfold CharReader.read_string
    rw [read_exact_eq, if_neg (by omega)]
  · intro hle hv
    unfold CharReader.read_string
    rw [read_exact_eq, if_pos (by omega)]
    dsimp only
    have hv2 : validUtf8 ((r.peekBuffer ++ r.inner).take n) = true := hv
    rw [if_pos hv2]
    rfl
  · unfold CharReader.peek
    by_cases hp : (r.inner.take n).length = 0
    · rw [if_pos hp]
      simp only [List.length_take] at hp
      constructor
      · intro _
        rcases Nat.min_eq_zero_iff.mp hp with h | h
        · exact Or.inr h
        · exact Or.inl (List.length_eq_zero.mp h)
      · intro _
        rfl
    · rw [if_neg hp]
      simp only [List.length_take] at hp
      constructor
      · intro h
        cases h
      · intro h
        exfalso
        rcases h with h | h
        · rw [h] at hp
          simp at hp
        · rw [h] at hp
          simp at hp
  · intro hi hn hle
    unfold CharReader.peek
    have hp : ¬ ((r.inner.take n).length = 0) := by
      simp only [List.length_take]
      have h1 : 0 < r.inner.length := List.length_pos.mpr hi
      omega
    rw [if_neg hp]
    have htl : ((r.peekBuffer ++ r.inner.take n).take n).length = n := by
      simp only [List.length_take, List.length_append]
      omega
    constructor
    · rw [take_pull_eq]
      unfold padZero
      rw [take_pull_eq] at htl
      rw [htl, Nat.sub_self]
      simp [combined]
    · simp only [List.length_append, List.length_take]
      omega
  · intro hi hn hlt
    unfold CharReader.peek
    have hp : ¬ ((r.inner.take n).length = 0) := by
      simp only [List.length_take]
      have h1 : 0 < r.inner.length := List.length_pos.mpr hi
      omega
    rw [if_neg hp]
    have hti : r.inner.take n = r.inner :=
      List.take_of_length_le (by omega)
    have htd : r.inner.drop n = [] :=
      List.drop_eq_nil_of_le (by omega)
    rw [hti, htd]
    have htbi : (r.peekBuffer ++ r.inner).take n = r.peekBuffer ++ r.inner :=
      List.take_of_length_le (by simp only [List.length_append]; omega)
    rw [htbi]
    unfold padZero
    rfl

/-- Witness for C1 (amended) at concrete inputs: a two-byte read succeeds
on a two-byte source, and a two-byte peek with enough input returns exactly
the next two bytes with the buffer filled. -/
theorem C1_amended_witness :
    CharReader.read_string ⟨[], [104]⟩ 2 = .error PError.eof ∧
    (CharReader.peek ⟨[], [104, 105]⟩ 2 =
       .ok ((combined ⟨[], [104, 105]⟩).take 2,
            ⟨[] ++ ([104, 105] : List Nat).take 2,
             ([104, 105] : List Nat).drop 2⟩) ∧
     2 ≤ (([] : List Nat) ++ ([104, 105] : List Nat).take 2).length) :=
  ⟨(C1_amended ⟨[], [104]⟩ 2).1 (by decide),
   (C1_amended ⟨[], [104, 105]⟩ 2).2.2.2.1 (by decide) (by decide) (by decide)⟩

/-- C2: the concrete reader scenario on `"This is a piece of text"`,
reproduced call by call with explicit intermediate states.  Byte 32 is the
space character, 105 is `i`. -/
theorem C2_scenario :
    CharReader.peek_string ⟨[], demoBytes⟩ 4 =
      .ok ([84, 104, 105, 115], ⟨[84, 104, 105, 115], demoBytes.drop 4⟩) ∧
    CharReader.read_string ⟨[84, 104, 105, 115], demoBytes.drop 4⟩ 4 =
      .ok ([84, 104, 105, 115], ⟨[], demoBytes.drop 4⟩) ∧
    CharReader.read_char ⟨[], demoBytes.drop 4⟩ =
      .ok (32, ⟨[], demoBytes.drop 5⟩) ∧
    CharReader.peek_string ⟨[], demoBytes.drop 5⟩ 3 =
      .ok ([105, 115, 32], ⟨[105, 115, 32], demoBytes.drop 8⟩) ∧
    CharReader.peek_string ⟨[105, 115, 32], demoBytes.drop 8⟩ 2 =
      .ok ([105, 115], ⟨[105, 115, 32, 97, 32], demoBytes.drop 10⟩) ∧
    CharReader.peek_char ⟨[105, 115, 32, 97, 32], demoBytes.drop 10⟩ =
      .ok (105, ⟨[105, 115, 32, 97, 32, 112], demoBytes.drop 11⟩) ∧
    CharReader.read_string ⟨[105, 115, 32, 97, 32, 112], demoBytes.drop 11⟩ 10 =
      .ok ([105, 115, 32, 97, 32, 112, 105, 101, 99, 101],
           ⟨[], demoBytes.drop 15⟩) ∧
    CharReader.peek_char ⟨[], demoBytes.drop 15⟩ =
      .ok (32, ⟨[32], demoBytes.drop 16⟩) ∧
    CharReader.read_char ⟨[32], demoBytes.drop 16⟩ =
      .ok (32, ⟨[], demoBytes.drop 16⟩) ∧
    CharReader.read_string ⟨[], demoBytes.drop 16⟩ 7 =
      .ok ([111, 102, 32, 116, 101, 120, 116], ⟨[], []⟩) ∧
    CharReader.read_char ⟨[], []⟩ = .error PError.eof := by
  refine ⟨?_, ?_, ?_, ?_, ?_, ?_, ?_, ?_, ?_, ?_, ?_⟩
  · rfl
  · unfold CharReader.read_string
    rw [read_exact_eq]
    rfl
  · unfold CharReader.read_char
    rw [read_exact_eq]
    rfl
  · rfl
  · rfl
  · rfl
  · unfold CharReader.read_string
    rw [read_exact_eq]
    rfl
  · rfl
  · unfold CharReader.read_char
    rw [read_exact_eq]
    rfl
  · unfold CharReader.read_string
    rw [read_exact_eq]
    rfl
  · unfold CharReader.read_char
    rw [read_exact_eq]
    rfl

/-- C3 counterexample: the claim requires the bytes returned by `read(n)`
after a `peek(n)` to equal the peeked bytes, for any reader state.  After
`peek_string 5` on a fresh reader over `"ab"` succeeds (returning the two
bytes zero-padded), the following `read_string 5` on the resulting state
fails with end of input, returning no bytes at all. -/
theorem C3_counterexample :
    CharReader.peek_string ⟨[], [97, 98]⟩ 5 =
      .ok ([97, 98, 0, 0, 0], ⟨[97, 98], []⟩) ∧
    CharReader.read_string ⟨[97, 98], []⟩ 5 = .error PError.eof := by
  constructor
  · rfl
  · unfold CharReader.read_string
    rw [read_exact_eq]
    rfl

/-- C3 (amended): any sequence of peeks leaves the combined stream of
subsequently deliverable bytes unchanged; whenever a `peek_string n` and
the following `read_string n` BOTH succeed, the bytes agree (the read can
fail after a successful zero-padded peek when fewer than `n` bytes
remain); and the bytes delivered by a read are unaffected by any earlier
sequence of peeks. -/
theorem C3_amended (ns : List Nat) (r : CharReader) (n : Nat) :
    combined (applyPeeks ns r) = combined r
    ∧ (∀ (p : List Nat) (r₁ : CharReader) (q : List Nat) (r₂ : CharReader),
        (applyPeeks ns r).peek_string n = .ok (p, r₁) →
        r₁.read_string n = .ok (q, r₂) → p = q)
    ∧ (∀ m, Except.map Prod.fst ((applyPeeks ns r).read_string m) =
        Except.map Prod.fst (r.read_string m)) := by
  refine ⟨applyPeeks_preserves ns r, ?_, ?_⟩
  · intro p r₁ q r₂ hp hr
    have hpk := peek_string_ok _ n p r₁ hp
    obtain ⟨hbytes, hstate⟩ := peek_ok _ n p r₁ hpk
    obtain ⟨hle, hq⟩ := read_string_ok r₁ n q r₂ hr
    have hcomb1 : combined r₁ = combined (applyPeeks ns r) := by
      exact peek_preserves _ n p r₁ hpk
    set s := applyPeeks ns r with hs
    have hlen : n ≤ (combined s).length := by
      rw [← hcomb1]
      exact hle
    have hlen2 : (combined s).length = s.peekBuffer.length + s.inner.length := by
      simp [combined]
    have htl : ((s.peekBuffer ++ s.inner.take n).take n).length = n := by
      simp only [List.length_take, List.length_append]
      omega
    rw [hq, hcomb1]
    rw [hbytes, take_pull_eq]
    rw [take_pull_eq] at htl
    unfold padZero
    rw [htl, Nat.sub_self]
    simp [combined]
  · intro m
    exact read_string_bytes_combined (applyPeeks ns r) r m
      (applyPeeks_preserves ns r)

/-- Witness for C3 (amended): after a three-byte peek on `"hello"`, a
two-byte peek and the following two-byte read both return `"he"`. -/
theorem C3_amended_witness :
    combined (applyPeeks [3] ⟨[], [104, 101, 108, 108, 111]⟩) =
      combined ⟨[], [104, 101, 108, 108, 111]⟩ ∧
    ([104, 101] : List Nat) = [104, 101] :=
  ⟨(C3_amended [3] ⟨[], [104, 101, 108, 108, 111]⟩ 2).1,
   (C3_amended [3] ⟨[], [104, 101, 108, 108, 111]⟩ 2).2.1
     [104, 101] ⟨[104, 101, 108, 108, 111], []⟩
     [104, 101] ⟨[108, 108, 111], []⟩
     (by rfl)
     (by unfold CharReader.read_string; rw [read_exact_eq]; rfl)⟩

/-- C4: `read_until` consumes characters while the predicate holds,
returns exactly the accumulated satisfying characters, and consumes and
discards the first failing character: it is neither in the result nor
pushed back, so the reader continues right after it. -/
theorem C4_read_until (r : CharReader) (op : Nat → Bool) (pre : List Nat)
    (t : Nat) (rest : List Nat)
    (hc : combined r = pre ++ t :: rest)
    (hall : ∀ c ∈ pre, op c = true) (ht : op t = false) :
    ∃ r', r.read_until op = .ok (pre, r') ∧ combined r' = rest :=
  read_until_spec op pre r t rest hc hall ht

/-- Witness for C4: on `"abc;rest"` with predicate `c ≠ ';'` (byte 59),
`read_until` returns `"abc"` and the next bytes are `"rest"`. -/
theorem C4_read_until_witness :
    ∃ r', CharReader.read_until ⟨[], [97, 98, 99, 59, 114, 101, 115, 116]⟩
        (fun c => !(c == 59)) = .ok ([97, 98, 99], r') ∧
      combined r' = [114, 101, 115, 116] :=
  C4_read_until ⟨[], [97, 98, 99, 59, 114, 101, 115, 116]⟩
    (fun c => !(c == 59)) [97, 98, 99] 59 [114, 101, 115, 116]
    (by rfl) (by decide) (by rfl)

/-- C5: the reader invariant.  A `peek` moves the pulled bytes from the
source into the look-ahead buffer without changing the combined stream
(the buffer always holds exactly the next bytes the source would have
yielded), and a successful exact read of `n` bytes returns the next `n`
bytes of the combined stream, draining the look-ahead buffer first and
falling back to the source only for the remainder: it consumes exactly
`n` bytes in total, and if the buffer alone covers the request the source
is untouched. -/
theorem C5_invariant (r : CharReader) (n : Nat) :
    (∀ bs r', r.peek n = .ok (bs, r') →
      combined r' = combined r ∧
      r'.peekBuffer = r.peekBuffer ++ r.inner.take n)
    ∧ (∀ bs r', r.read_exact n = .ok (bs, r') →
      bs = (combined r).take n ∧
      r'.peekBuffer = r.peekBuffer.drop n ∧
      r'.inner = r.inner.drop (n - r.peekBuffer.length) ∧
      combined r' = (combined r).drop n ∧
      (n ≤ r.peekBuffer.length → r'.inner = r.inner)) := by
  constructor
  · intro bs r' h
    refine ⟨peek_preserves r n bs r' h, ?_⟩
    obtain ⟨_, hstate⟩ := peek_ok r n bs r' h
    rw [hstate]
  · intro bs r' h
    rw [read_exact_eq] at h
    by_cases hle : n ≤ r.peekBuffer.length + r.inner.length
    · rw [if_pos hle] at h
      injection h with h2
      injection h2 with h3 h4
      refine ⟨h3.symm, ?_, ?_, ?_, ?_⟩
      · rw [← h4]
      · rw [← h4]
      · rw [← h4]
        show r.peekBuffer.drop n ++ r.inner.drop (n - r.peekBuffer.length) =
          (combined r).drop n
        rw [← List.drop_append_eq_append_drop]
        rfl
      · intro hb
        rw [← h4]
        show r.inner.drop (n - r.peekBuffer.length) = r.inner
        rw [Nat.sub_eq_zero_of_le hb, List.drop_zero]
    · rw [if_neg hle] at h
      cases h

/-- Witness for C5 at a concrete state: buffer `[104]`, source
`[105, 106]`, request 2. -/
theorem C5_invariant_witness :
    (combined (⟨[104, 105, 106], []⟩ : CharReader) =
        combined ⟨[104], [105, 106]⟩ ∧
      ([104, 105, 106] : List Nat) = [104] ++ ([105, 106] : List Nat).take 2) ∧
    (([104, 105] : List Nat) = (combined ⟨[104], [105, 106]⟩).take 2 ∧
      ([] : List Nat) = ([104] : List Nat).drop 2 ∧
      ([106] : List Nat) =
        ([105, 106] : List Nat).drop (2 - ([104] : List Nat).length) ∧
      combined ⟨[], [106]⟩ = (combined ⟨[104], [105, 106]⟩).drop 2 ∧
      (2 ≤ ([104] : List Nat).length → ([106] : List Nat) = [105, 106])) :=
  ⟨(C5_invariant ⟨[104], [105, 106]⟩ 2).1 [104, 105]
     ⟨[104, 105, 106], []⟩ (by rfl),
   (C5_invariant ⟨[104], [105, 106]⟩ 2).2 [104, 105]
     ⟨[], [106]⟩ (by rw [read_exact_eq]; rfl)⟩

/-- C10: single-character reads and peeks never perform text-encoding
validation: they either succeed (returning the raw byte, cast to a char
scalar) or fail with end of input, never with an encoding error; on any
one-byte source both succeed and return that byte, even where
`read_string` and `peek_string` reject the byte as invalid UTF-8
(byte 255). -/
theorem C10_char_no_utf8 :
    (∀ r : CharReader,
       (∃ c r', r.read_char = .ok (c, r')) ∨ r.read_char = .error PError.eof)
    ∧ (∀ r : CharReader,
       (∃ c r', r.peek_char = .ok (c, r')) ∨ r.peek_char = .error PError.eof)
    ∧ (∀ b : Nat, CharReader.read_char ⟨[], [b]⟩ = .ok (b, ⟨[], []⟩)
         ∧ CharReader.peek_char ⟨[], [b]⟩ = .ok (b, ⟨[b], []⟩))
    ∧ CharReader.read_string ⟨[], [255]⟩ 1 = .error PError.invalidUtf8
    ∧ CharReader.peek_string ⟨[], [255]⟩ 1 = .error PError.invalidUtf8 := by
  refine ⟨?_, ?_, ?_, ?_, ?_⟩
  · intro r
    unfold CharReader.read_char
    rw [read_exact_eq]
    by_cases hle : 1 ≤ r.peekBuffer.length + r.inner.length
    · rw [if_pos hle]
      exact Or.inl ⟨_, _, rfl⟩
    · rw [if_neg hle]
      exact Or.inr rfl
  · intro r
    unfold CharReader.peek_char
    cases hpk : r.peek 1 with
    | error e =>
      have he := peek_error_state r 1 e hpk
      subst he
      exact Or.inr rfl
    | ok val =>
      obtain ⟨bs, r'⟩ := val
      exact Or.inl ⟨_, _, rfl⟩
  · intro b
    constructor
    · unfold CharReader.read_char
      rw [read_exact_eq]
      rfl
    · rfl
  · unfold CharReader.read_string
    rw [read_exact_eq]
    rfl
  · rfl

/-! ## Site tree lemmas -/

/-- A node with a parent is in range and, in a well-formed arena, its
parent id is strictly smaller. -/
theorem parent_lt (t : SiteTreeM) (hwf : wfParents t = true) (id p : Nat)
    (hp : parentOf t id = some p) : p < id ∧ id < t.length := by
  have hid : id < t.length := by
    by_contra hge
    have : t.get? id = none := List.get?_eq_none.mpr (Nat.le_of_not_lt hge)
    unfold parentOf at hp
    rw [this] at hp
    cases hp
  refine ⟨?_, hid⟩
  have hall := List.all_eq_true.mp hwf id (List.mem_range.mpr hid)
  rw [hp] at hall
  exact of_decide_eq_true hall

/-- The fuel of `chainAux` is irrelevant once it is at least the node id
(in a well-formed arena parent ids strictly decrease). -/
theorem chainAux_irrel (t : SiteTreeM) (hwf : wfParents t = true) :
    ∀ id f1 f2, id ≤ f1 → id ≤ f2 → chainAux t f1 id = chainAux t f2 id := by
  intro id
  induction id using Nat.strong_induction_on with
  | _ id ih =>
    intro f1 f2 h1 h2
    cases hp : parentOf t id with
    | none =>
      cases f1 <;> cases f2 <;> simp [chainAux, hp]
    | some p =>
      obtain ⟨hplt, _⟩ := parent_lt t hwf id p hp
      cases f1 with
      | zero => omega
      | succ g1 =>
        cases f2 with
        | zero => omega
        | succ g2 =>
          simp only [chainAux, hp]
          rw [ih p hplt g1 g2 (by omega) (by omega)]

/-- The chain of a rootless node (no parent) is the singleton. -/
theorem chain_root (t : SiteTreeM) (id : Nat)
    (hp : parentOf t id = none) : chain t id = [id] := by
  unfold chain
  cases id <;> simp [chainAux, hp]

/-- Unfolding of the parent chain under well-formedness. -/
theorem chain_unfold (t : SiteTreeM) (hwf : wfParents t = true)
    (id p : Nat) (hp : parentOf t id = some p) :
    chain t id = id :: chain t p := by
  obtain ⟨hplt, _⟩ := parent_lt t hwf id p hp
  cases id with
  | zero => omega
  | succ k =>
    show chainAux t (k + 1) (k + 1) = (k + 1) :: chainAux t p p
    simp only [chainAux, hp]
    rw [chainAux_irrel t hwf p k p (by omega) (le_refl p)]

/-- A parent chain is never empty. -/
theorem chain_ne_nil (t : SiteTreeM) (id : Nat) : chain t id ≠ [] := by
  unfold chain
  cases id with
  | zero => simp [chainAux]
  | succ k =>
    simp only [chainAux]
    cases parentOf t (k + 1) <;> simp

/-- Any member of a parent chain heads its own chain as a suffix. -/
theorem chain_suffix (t : SiteTreeM) (hwf : wfParents t = true) :
    ∀ id l, l ∈ chain t id →
      (chain t id).drop ((chain t id).indexOf l) = chain t l := by
  intro id
  induction id using Nat.strong_induction_on with
  | _ id ih =>
    intro l hl
    cases hp : parentOf t id with
    | none =>
      rw [chain_root t id hp] at hl ⊢
      have : l = id := by simpa using hl
      subst this
      simp [chain_root t l hp]
    | some p =>
      obtain ⟨hplt, _⟩ := parent_lt t hwf id p hp
      rw [chain_unfold t hwf id p hp] at hl ⊢
      by_cases hli : l = id
      · subst hli
        rw [List.indexOf_cons_self]
        rw [List.drop_zero, ← chain_unfold t hwf l p hp]
      · have hl2 : l ∈ chain t p := by
          rcases List.mem_cons.mp hl with h | h
          · exact absurd h.symm (fun hh => hli hh.symm)
          · exact h
        rw [List.indexOf_cons_ne _ (by simpa using fun hh => hli hh.symm)]
        simp only [List.drop_succ_cons]
        exact ih p hplt l hl2

/-- The index of an ancestor in a node's parent chain is exactly the
depth difference between the node and the ancestor. -/
theorem indexOf_eq_depth_sub (t : SiteTreeM) (hwf : wfParents t = true)
    (a l : Nat) (hl : l ∈ chain t a) :
    (chain t a).indexOf l = depthOf t a - depthOf t l := by
  have hs := chain_suffix t hwf a l hl
  have hlen := congrArg List.length hs
  rw [List.length_drop] at hlen
  have hidx : (chain t a).indexOf l ≤ (chain t a).length :=
    List.indexOf_le_length
  have h1 : 1 ≤ (chain t a).length :=
    List.length_pos.mpr (chain_ne_nil t a)
  have h2 : 1 ≤ (chain t l).length :=
    List.length_pos.mpr (chain_ne_nil t l)
  unfold depthOf
  omega

/-- C6: `rel_path(a, b)` is built from one `..` per step from `a` up to
the lowest common ancestor — their number equalling the depth difference
between `a` and the ancestor — followed by the names from the ancestor
down to `b`. -/
theorem C6_rel_path (t : SiteTreeM) (hwf : wfParents t = true)
    (a b l : Nat) (hl : lcaOf t a b = some l) :
    relSegments t a b =
      some (List.replicate (depthOf t a - depthOf t l) ".." ++
        ((chain t b).takeWhile (fun x => !(x == l))).reverse.map (nameOf t)) ∧
    rel_path t a b =
      some (String.intercalate "/"
        (List.replicate (depthOf t a - depthOf t l) ".." ++
          ((chain t b).takeWhile (fun x => !(x == l))).reverse.map
            (nameOf t))) := by
  have hmem : l ∈ chain t a := List.mem_of_find?_eq_some hl
  have hidx := indexOf_eq_depth_sub t hwf a l hmem
  have hseg : relSegments t a b =
      some (List.replicate (depthOf t a - depthOf t l) ".." ++
        ((chain t b).takeWhile (fun x => !(x == l))).reverse.map
          (nameOf t)) := by
    unfold relSegments
    rw [hl]
    dsimp only
    rw [hidx]
  exact ⟨hseg, by unfold rel_path; rw [hseg]; rfl⟩

/-- Witness for C6: in the five-node tree `/a/b/x`, `/a/b/y`, the relative
path from `x` (id 3) to its sibling `y` (id 4) has exactly one `..`
(their lowest common ancestor `b` is one step up) and reads `"../y"`. -/
theorem C6_rel_path_witness :
    relSegments exTree 3 4 =
      some (List.replicate (depthOf exTree 3 - depthOf exTree 2) ".." ++
        ((chain exTree 4).takeWhile (fun x => !(x == 2))).reverse.map
          (nameOf exTree)) ∧
    rel_path exTree 3 4 = some "../y" :=
  ⟨(C6_rel_path exTree (by decide) 3 4 2 (by decide)).1, by decide⟩

/-! ## Walk lemmas -/

/-- In a well-formed children arena, every child is strictly greater than
its parent and in range. -/
theorem wfChildren_spec (t : ChildArena) (hwf : wfChildren t = true)
    (id : Nat) : ∀ c ∈ childrenOf t id, id < c ∧ c < t.length := by
  intro c hc
  by_cases hid : id < t.length
  · have hall := List.all_eq_true.mp hwf id (List.mem_range.mpr hid)
    have hb := List.all_eq_true.mp hall c hc
    simp at hb
    exact hb
  · exfalso
    have hnone : childrenOf t id = [] := by
      unfold childrenOf
      rw [List.get?_eq_none.mpr (Nat.le_of_not_lt hid)]
      rfl
    rw [hnone] at hc
    cases hc

/-- `subtreeAll` over in-range children is the concatenation of their
subtrees. -/
theorem subtreeAll_eq (t : ChildArena) (id : Nat) :
    ∀ cs : List Nat, (∀ c ∈ cs, id < c ∧ c < t.length) →
      subtreeAll t id cs = (cs.map (subtree t)).flatten := by
  intro cs
  induction cs with
  | nil =>
    intro _
    rw [subtreeAll.eq_def]
    rfl
  | cons c rest ih =>
    intro h
    rw [subtreeAll.eq_def]
    dsimp only
    rw [dif_pos (h c (List.mem_cons_self c rest))]
    rw [ih (fun d hd => h d (List.mem_cons_of_mem c hd))]
    simp

/-- On a well-formed arena the `subtree` guard never cuts anything:
a subtree is the node followed by its children's subtrees. -/
theorem subtree_eq (t : ChildArena) (hwf : wfChildren t = true) (id : Nat) :
    subtree t id = id :: ((childrenOf t id).map (subtree t)).flatten := by
  rw [subtree.eq_def]
  rw [subtreeAll_eq t id (childrenOf t id) (wfChildren_spec t hwf id)]

/-- A permutation of lists of lists flattens to a permutation. -/
theorem flatten_perm (l₁ l₂ : List (List Nat)) (h : l₁.Perm l₂) :
    l₁.flatten.Perm l₂.flatten := by
  induction h with
  | nil => exact List.Perm.refl _
  | cons x _ ih => simpa using ih.append_left x
  | swap x y l =>
    simp only [List.flatten_cons]
    rw [← List.append_assoc, ← List.append_assoc]
    exact List.perm_append_comm.append_right _
  | trans _ _ ih₁ ih₂ => exact ih₁.trans ih₂

/-- A list with a last element decomposes around it. -/
theorem getLast?_decomp : ∀ (l : List Nat) (a : Nat), l.getLast? = some a →
    l = l.dropLast ++ [a] := by
  intro l
  induction l with
  | nil =>
    intro a h
    cases h
  | cons x xs ih =>
    intro a h
    cases xs with
    | nil =>
      simp at h
      subst h
      rfl
    | cons y ys =>
      rw [List.getLast?_cons_cons] at h
      have hx := ih a h
      show x :: (y :: ys) = (x :: y :: ys).dropLast ++ [a]
      rw [List.dropLast_cons₂]
      rw [List.cons_append]
      exact congrArg (x :: ·) hx

/-- The queue-based walk of `Lssg::render` (pop from the end, append
children) visits, with any sibling order `ord` agreeing with the arena up
to permutation and sufficient fuel, a permutation of the concatenated
subtrees of the queue entries. -/
theorem walkVec_perm (t : ChildArena) (hwf : wfChildren t = true)
    (ord : Nat → List Nat) (hord : ∀ id, (ord id).Perm (childrenOf t id)) :
    ∀ (fuel : Nat) (q : List Nat),
      ((q.map (subtree t)).flatten).length ≤ fuel →
      (walkVec ord fuel q).Perm ((q.map (subtree t)).flatten) := by
  intro fuel
  induction fuel with
  | zero =>
    intro q hq
    have hnil : (q.map (subtree t)).flatten = [] :=
      List.length_eq_zero.mp (Nat.le_zero.mp hq)
    rw [hnil]
    exact List.Perm.refl _
  | succ f ih =>
    intro q hq
    cases hlast : q.getLast? with
    | none =>
      cases q with
      | nil => exact List.Perm.refl _
      | cons x xs => simp at hlast
    | some id =>
      have hdec := getLast?_decomp q id hlast
      have hstep : walkVec ord (f + 1) q =
          id :: walkVec ord f (q.dropLast ++ ord id) := by
        simp [walkVec, hlast]
      have hS := subtree_eq t hwf id
      have hJ : (((ord id).map (subtree t)).flatten).Perm
          (((childrenOf t id).map (subtree t)).flatten) :=
        flatten_perm _ _ ((hord id).map (subtree t))
      have hqlen : ((q.map (subtree t)).flatten).length =
          (((q.dropLast).map (subtree t)).flatten).length +
            (subtree t id).length := by
        conv_lhs => rw [hdec]
        simp
      have hfuel : (((q.dropLast ++ ord id).map (subtree t)).flatten).length
          ≤ f := by
        have hJlen := hJ.length_eq
        have hSlen : (subtree t id).length =
            (((childrenOf t id).map (subtree t)).flatten).length + 1 := by
          rw [hS]
          simp
        simp only [List.map_append, List.flatten_append, List.length_append]
        omega
      have hIH := ih (q.dropLast ++ ord id) hfuel
      rw [hstep]
      have h1 : (id :: walkVec ord f (q.dropLast ++ ord id)).Perm
          (id :: (((q.dropLast).map (subtree t)).flatten ++
            ((childrenOf t id).map (subtree t)).flatten)) := by
        refine List.Perm.cons id ?_
        refine hIH.trans ?_
        simp only [List.map_append, List.flatten_append]
        exact hJ.append_left _
      refine h1.trans ?_
      have h2 : (id :: (((q.dropLast).map (subtree t)).flatten ++
            ((childrenOf t id).map (subtree t)).flatten)).Perm
          (((q.dropLast).map (subtree t)).flatten ++
            (id :: ((childrenOf t id).map (subtree t)).flatten)) :=
        List.perm_middle.symm
      refine h2.trans ?_
      rw [← hS]
      conv_rhs => rw [hdec]
      simp

/-- C7: the render walk's output is independent of sibling visitation
order.  The code's walk (`childrenOf t`: children pushed in order, popped
from the end, so the last child is visited first) and a walk with any
permuted sibling order visit permutations of the same node multiset, so
mapping any per-node write function `w` (output path and bytes are a
function of the node alone) yields the same multiset of written files —
the same on-disk file tree. -/
theorem C7_walk_order (t : ChildArena) (hwf : wfChildren t = true)
    (w : Nat → List String × String) (ord : Nat → List Nat)
    (hord : ∀ id, (ord id).Perm (childrenOf t id))
    (root fuel₁ fuel₂ : Nat)
    (hf₁ : (subtree t root).length ≤ fuel₁)
    (hf₂ : (subtree t root).length ≤ fuel₂) :
    ((walkVec (childrenOf t) fuel₁ [root]).map w).Perm
      ((walkVec ord fuel₂ [root]).map w) := by
  have h₁ := walkVec_perm t hwf (childrenOf t) (fun _ => List.Perm.refl _)
    fuel₁ [root] (by simpa using hf₁)
  have h₂ := walkVec_perm t hwf ord hord fuel₂ [root] (by simpa using hf₂)
  exact (h₁.trans h₂.symm).map w

/-- Witness for C7 on the three-node arena: the code's last-child-first
walk and the first-child-first walk write permutations of the same files. -/
theorem C7_walk_order_witness :
    ((walkVec (childrenOf exArena) 5 [0]).map
        (fun id => ([toString id], "content"))).Perm
      ((walkVec (fun id => (childrenOf exArena id).reverse) 5 [0]).map
        (fun id => ([toString id], "content"))) := by
  have hwfe : wfChildren exArena = true := by decide
  have e1 : subtree exArena 1 = [1] := by
    rw [subtree_eq exArena hwfe 1]
    rfl
  have e2 : subtree exArena 2 = [2] := by
    rw [subtree_eq exArena hwfe 2]
    rfl
  have e0 : subtree exArena 0 = [0, 1, 2] := by
    rw [subtree_eq exArena hwfe 0]
    show 0 :: (([1, 2].map (subtree exArena)).flatten) = [0, 1, 2]
    rw [List.map_cons, List.map_cons, List.map_nil, e1, e2]
    rfl
  exact C7_walk_order exArena hwfe (fun id => ([toString id], "content"))
    (fun id => (childrenOf exArena id).reverse)
    (fun _ => List.reverse_perm _) 0 5 5
    (by rw [e0]; decide) (by rw [e0]; decide)

/-! ## Output path lemmas -/

/-- The tree path of a non-root node is its parent's path plus its own
name segment. -/
theorem pathSegs_parent (t : SiteTreeM) (hwf : wfParents t = true)
    (id p : Nat) (nm : String) (hget : t.get? id = some ⟨nm, some p⟩) :
    pathSegs t id = pathSegs t p ++ [nm] := by
  have hp : parentOf t id = some p := by
    unfold parentOf
    rw [hget]
    rfl
  have hname : nameOf t id = nm := by
    unfold nameOf
    rw [hget]
    rfl
  unfold pathSegs
  rw [chain_unfold t hwf id p hp]
  rw [List.reverse_cons, List.map_append]
  rw [List.tail_append_of_ne_nil]
  · rw [List.map_cons, List.map_nil, hname]
  · simp [chain_ne_nil t p]

/-- Folding the normalisation over `..`-free segments just appends them. -/
theorem normSegs_aux : ∀ (segs : List String), ".." ∉ segs →
    ∀ acc : List String,
      segs.foldl (fun acc s => if s = ".." then acc.dropLast else acc ++ [s])
        acc = acc ++ segs := by
  intro segs
  induction segs with
  | nil =>
    intro _ acc
    simp
  | cons s ss ih =>
    intro hnd acc
    have hs : s ≠ ".." := fun h => hnd (h ▸ List.mem_cons_self s ss)
    simp only [List.foldl_cons, if_neg hs]
    rw [ih (fun h => hnd (List.mem_cons_of_mem s h)) (acc ++ [s])]
    simp

/-- Normalisation leaves a `..`-free path unchanged. -/
theorem normSegs_no_dots (segs : List String) (h : ".." ∉ segs) :
    normSegs segs = segs := by
  unfold normSegs
  simpa using normSegs_aux segs h []

/-- A `name/../target` suffix normalises to just `target`. -/
theorem normSegs_updir (base : List String) (nm y : String)
    (hbase : ".." ∉ base) (hnm : nm ≠ "..") (hy : y ≠ "..") :
    normSegs (base ++ [nm, "..", y]) = base ++ [y] := by
  unfold normSegs
  rw [List.foldl_append]
  rw [normSegs_aux base hbase []]
  simp only [List.nil_append, List.foldl_cons, List.foldl_nil]
  rw [if_neg hnm]
  simp only [if_true]
  rw [if_neg hy, List.dropLast_concat]

/-- C8: output location of a `Page` node (lib.rs lines 186-201).  With the
keep-name flag set, the single write goes to
`<tree-path>/../<name>.html` — which normalises to
`<parent-path>/<name>.html`; with the flag unset, the node's directory is
created and the write goes to `<parent-path>/<name>/index.html`. -/
theorem C8_page_output (outDir : List String) (t : SiteTreeM)
    (nt : Nat → NodeTypeM) (id p : Nat) (nm : String) (k : Bool)
    (html : String)
    (hwf : wfParents t = true)
    (hget : t.get? id = some ⟨nm, some p⟩)
    (hnt : nt id = .page k html)
    (hnd : ".." ∉ outDir ++ pathSegs t p)
    (hnm : nm ≠ "..") (hnmh : nm ++ ".html" ≠ "..") :
    (k = true →
      nodeActions outDir t nt id =
        [.writeFile (outDir ++ pathSegs t p ++ [nm, "..", nm ++ ".html"])
          html] ∧
      normSegs (outDir ++ pathSegs t p ++ [nm, "..", nm ++ ".html"]) =
        outDir ++ pathSegs t p ++ [nm ++ ".html"])
    ∧ (k = false →
      nodeActions outDir t nt id =
        [.makeDir (outDir ++ pathSegs t p ++ [nm]),
         .writeFile (outDir ++ pathSegs t p ++ [nm, "index.html"]) html]) := by
  have hname : nameOf t id = nm := by
    unfold nameOf
    rw [hget]
    rfl
  have hps := pathSegs_parent t hwf id p nm hget
  constructor
  · intro hk
    subst hk
    constructor
    · unfold nodeActions
      rw [hnt]
      dsimp only
      rw [if_pos rfl, hps, hname]
      simp
    · have h := normSegs_updir (outDir ++ pathSegs t p) nm (nm ++ ".html")
        hnd hnm hnmh
      simpa using h
  · intro hk
    subst hk
    unfold nodeActions
    rw [hnt]
    dsimp only
    rw [if_neg (by simp), hps]
    simp

/-- Witness for C8 on the five-node tree: page `y` (id 4, parent path
`a/b`) goes to `a/b/y/../y.html` — normalising to `a/b/y.html` — when the
flag is set, and to `a/b/y/index.html` (after creating `a/b/y`) when it is
not. -/
theorem C8_page_output_witness :
    (([] : List String) ++ pathSegs exTree 2 ++ ["y", "..", "y" ++ ".html"] =
        ["a", "b", "y", "..", "y.html"] ∧
      normSegs (([] : List String) ++ pathSegs exTree 2 ++
          ["y", "..", "y" ++ ".html"]) =
        ([] : List String) ++ pathSegs exTree 2 ++ ["y" ++ ".html"]) ∧
    nodeActions [] exTree (fun _ => NodeTypeM.page false "<html/>") 4 =
      [.makeDir (([] : List String) ++ pathSegs exTree 2 ++ ["y"]),
       .writeFile (([] : List String) ++ pathSegs exTree 2 ++
         ["y", "index.html"]) "<html/>"] :=
  ⟨⟨by decide,
    ((C8_page_output [] exTree (fun _ => NodeTypeM.page true "<html/>") 4 2
      "y" true "<html/>" (by decide) (by decide) rfl (by decide) (by decide)
      (by decide)).1 rfl).2⟩,
   (C8_page_output [] exTree (fun _ => NodeTypeM.page false "<html/>") 4 2
      "y" false "<html/>" (by decide) (by decide) rfl (by decide) (by decide)
      (by decide)).2 rfl⟩

/-! ## Fail-fast sequencing lemmas -/

/-- A run whose steps all succeed performs every action in order. -/
theorem runSeq_ok (steps : List (List FsAction × Option LssgErrorM))
    (h : ∀ x ∈ steps, x.2 = none) :
    runSeq steps = ((steps.map Prod.fst).flatten, none) := by
  induction steps with
  | nil => rfl
  | cons s rest ih =>
    obtain ⟨acts, e⟩ := s
    have he : e = none := h (acts, e) (List.mem_cons_self _ _)
    subst he
    simp only [runSeq]
    rw [ih (fun x hx => h x (List.mem_cons_of_mem _ hx))]
    simp

/-- The first failing step aborts the run: its error is surfaced
unmodified, later steps never run, and the actions of the successful
prefix (plus the failing step's own) are all that happened. -/
theorem runSeq_fail (s₁ : List (List FsAction × Option LssgErrorM))
    (acts : List FsAction) (e : LssgErrorM)
    (s₂ : List (List FsAction × Option LssgErrorM))
    (h : ∀ x ∈ s₁, x.2 = none) :
    runSeq (s₁ ++ (acts, some e) :: s₂) =
      ((s₁.map Prod.fst).flatten ++ acts, some e) := by
  induction s₁ with
  | nil => simp [runSeq]
  | cons s rest ih =>
    obtain ⟨a, e2⟩ := s
    have he : e2 = none := h (a, e2) (List.mem_cons_self _ _)
    subst he
    simp only [List.cons_append, runSeq, List.append_eq]
    rw [ih (fun x hx => h x (List.mem_cons_of_mem _ hx))]
    simp

/-- C9: `Lssg::render` is fail-fast with unmodified error propagation.
Modelling the render as its `?`-chained sequence of fallible steps
(pre-walk steps followed by one step per visited node), the first step
that fails aborts the whole run immediately — no later step runs, no step
runs twice — and the run's result carries exactly that step's error (one
of the closed `LssgError` kinds) while every action already performed by
the successful prefix remains in place (no rollback); if no step fails,
every step's actions are performed once, in order. -/
theorem C9_fail_fast (pre : List (List FsAction × Option LssgErrorM))
    (step : Nat → List FsAction × Option LssgErrorM) (nodes : List Nat) :
    (∀ (s₁ : List (List FsAction × Option LssgErrorM)) (acts : List FsAction)
        (e : LssgErrorM) (s₂ : List (List FsAction × Option LssgErrorM)),
      pre ++ nodes.map step = s₁ ++ (acts, some e) :: s₂ →
      (∀ x ∈ s₁, x.2 = none) →
      renderModel pre step nodes = ((s₁.map Prod.fst).flatten ++ acts, some e))
    ∧ ((∀ x ∈ pre ++ nodes.map step, x.2 = none) →
      renderModel pre step nodes =
        (((pre ++ nodes.map step).map Prod.fst).flatten, none)) := by
  constructor
  · intro s₁ acts e s₂ hdecomp hok
    unfold renderModel
    rw [hdecomp]
    exact runSeq_fail s₁ acts e s₂ hok
  · intro hall
    unfold renderModel
    exact runSeq_ok _ hall

/-- Witness for C9: three nodes, the second one's write fails with an I/O
error; the run stops there, keeping the directory creation and the first
node's write, and surfaces exactly that error. -/
theorem C9_fail_fast_witness :
    renderModel [([FsAction.makeDir ["out"]], none)]
      (fun id => if id = 1 then ([], some (LssgErrorM.ioError 7))
                 else ([FsAction.writeFile ["out", "f"] "x"], none))
      [0, 1, 2] =
    ((([([FsAction.makeDir ["out"]], (none : Option LssgErrorM)),
        ([FsAction.writeFile ["out", "f"] "x"], none)].map Prod.fst).flatten
      ++ []), some (LssgErrorM.ioError 7)) :=
  (C9_fail_fast [([FsAction.makeDir ["out"]], none)]
    (fun id => if id = 1 then ([], some (LssgErrorM.ioError 7))
               else ([FsAction.writeFile ["out", "f"] "x"], none))
    [0, 1, 2]).1
    [([FsAction.makeDir ["out"]], none),
     ([FsAction.writeFile ["out", "f"] "x"], none)]
    [] (LssgErrorM.ioError 7)
    [([FsAction.writeFile ["out", "f"] "x"], none)]
    (by decide) (by decide)
